import Mathlib

/-!
A verification development for the Loush virtual-DOM engine (src/Loush.js).

The JavaScript source is shallowly embedded: JS objects become Lean
structures, JS prop bags become association lists in key-insertion order
(`Object.keys` order), JS strings are sequences of code units (`List Char`),
and JS reference identity for functions is modelled by a numeric id.
Fallible JS operations (member access on `undefined`, and the host DOM
calls they guard) are embedded in `Except JsErr`.  Host-mutating calls are
embedded as explicit event/operation lists, in the order the source issues
them.
-/

/-- A JS runtime fault.  The only fault the embedded fragments can raise is
a `TypeError` (reading a member of `undefined`, calling a method of
`undefined`, or removing a node that needs a live parent). -/
inductive JsErr where
  | typeError
deriving DecidableEq, Repr

/-- A JS value as far as the engine compares them (`!==`, `==` on types):
primitives compare by value, functions by reference identity (modelled by a
numeric id), and `undefined` is the value of an absent member. -/
inductive JSValue where
  | str : String → JSValue
  | num : Int → JSValue
  | bool : Bool → JSValue
  | fn : Nat → JSValue
  | undefined
deriving DecidableEq, Repr

/-- A fiber/element `type`: a host tag string (including the reserved
`"TEXT_ELEMENT"` marker) or a function component (by reference id).
JS `element.type == oldFiber.type` is equality on this type. -/
inductive FiberType where
  | tag : String → FiberType
  | comp : Nat → FiberType
deriving DecidableEq, Repr

/-- A JS prop bag: keys in insertion order with their values, as
`Object.keys` enumerates them. -/
def Props : Type := List (String × JSValue)

instance : DecidableEq Props := by
  unfold Props
  infer_instance

instance : Membership (String × JSValue) Props := by
  unfold Props
  infer_instance

/-- `Object.keys props` — the keys, in insertion order. -/
def Props.keys (props : Props) : List String :=
  (show List (String × JSValue) from props).map Prod.fst

/-- Lookup of a key that is actually present in the bag. -/
def Props.getOpt (props : Props) (k : String) : Option JSValue :=
  ((show List (String × JSValue) from props).find? (fun p => p.1 == k)).map Prod.snd

/-- JS member access `props[k]`: the stored value, or `undefined` when the
key is absent. -/
def Props.getJs (props : Props) (k : String) : JSValue :=
  (props.getOpt k).getD JSValue.undefined

/-- The JS `k in props` test (presence, regardless of the stored value). -/
def Props.hasKey (props : Props) (k : String) : Bool :=
  (props.getOpt k).isSome

/-- `const isEvent = key => key.startsWith("on")` — over code units. -/
def isEvent (key : String) : Bool :=
  List.isPrefixOf "on".data key.data

/-- `const isProperty = key => key !== "children" && !isEvent(key)`. -/
def isProperty (key : String) : Bool :=
  key ≠ "children" && !(isEvent key)

/-- `const isNew = (prev, next) => key => prev[key] !== next[key]`. -/
def isNew (prev next : Props) (key : String) : Bool :=
  prev.getJs key != next.getJs key

/-- `const isGone = (prev, next) => key => !(key in next)`. -/
def isGone (_prev next : Props) (key : String) : Bool :=
  !(next.hasKey key)

/-- `name.toLowerCase().substring(2)` — JS `toLowerCase` maps each code
unit (modelled by `Char.toLower`), then `substring(2)` drops the first two
units. -/
def eventTypeOf (name : String) : String :=
  ⟨(name.data.map Char.toLower).drop 2⟩

/-- One host-node mutation issued by `updateDom`, in source order:
`removeEventListener`, `dom[name] = ""`, `dom[name] = value`,
`addEventListener`.  Every operation targets the single node `updateDom`
was passed — the embedding returns the operation list and nothing else,
mirroring the source's "no return value; side effect only on the passed
node". -/
inductive DomUpdate where
  | removeListener : String → JSValue → DomUpdate
  | clearProp : String → DomUpdate
  | setProp : String → JSValue → DomUpdate
  | addListener : String → JSValue → DomUpdate
deriving DecidableEq, Repr

/-- `updateDom(dom, prevProps, nextProps)` — the four filter/forEach passes
of the source, in order: stale listeners removed, gone properties cleared,
new or changed properties set, new or changed listeners added. -/
def updateDom (prevProps nextProps : Props) : List DomUpdate :=
  (((prevProps.keys.filter isEvent).filter
      (fun key => !(nextProps.hasKey key) || isNew prevProps nextProps key)).map
    (fun name => DomUpdate.removeListener (eventTypeOf name) (prevProps.getJs name)))
  ++ (((prevProps.keys.filter isProperty).filter (isGone prevProps nextProps)).map
    (fun name => DomUpdate.clearProp name))
  ++ (((nextProps.keys.filter isProperty).filter (isNew prevProps nextProps)).map
    (fun name => DomUpdate.setProp name (nextProps.getJs name)))
  ++ (((nextProps.keys.filter isEvent).filter (isNew prevProps nextProps)).map
    (fun name => DomUpdate.addListener (eventTypeOf name) (nextProps.getJs name)))

/-- An element value (`createElement` output): a `type`, the non-children
props, and the `children` list (the source stores children inside
`props.children`; the embedding keeps them as a separate, element-typed
field of the same record). -/
inductive LElement where
  | mk : FiberType → Props → List LElement → LElement

/-- The `type` field of an element. -/
def LElement.etype : LElement → FiberType
  | .mk t _ _ => t

/-- The non-children props of an element. -/
def LElement.props : LElement → Props
  | .mk _ p _ => p

/-- The `props.children` list of an element. -/
def LElement.children : LElement → List LElement
  | .mk _ _ cs => cs

/-- `createTextElement(text)`: the fixed-shape text leaf. -/
def createTextElement (text : String) : LElement :=
  .mk (.tag "TEXT_ELEMENT") [("nodeValue", .str text)] []

/-- A raw child argument of `createElement`: either already
element-shaped (`typeof child === "object"`) or a primitive to be wrapped
by `createTextElement`. -/
inductive ChildArg where
  | elem : LElement → ChildArg
  | text : String → ChildArg

/-- `createElement(type, props, ...children)`: wraps non-object children
into text elements and stores the resulting list as `props.children`. -/
def createElement (t : FiberType) (props : Props) (children : List ChildArg) : LElement :=
  .mk t props (children.map (fun c =>
    match c with
    | .elem e => e
    | .text s => createTextElement s))

/-- The commit action recorded on a fiber during diffing. -/
inductive EffectTag where
  | PLACEMENT
  | UPDATE
  | DELETION
deriving DecidableEq, Repr

/-- The previous-generation fiber data `reconcileChildren` reads and
mutates: its `type`, its owned host node (by id), its props, and its
`effectTag` field (stale from the render that created it, overwritten with
`DELETION` when the position disappears or changes type). -/
structure OldFiber where
  ftype : FiberType
  dom : Option Nat
  props : Props
  effectTag : Option EffectTag
deriving DecidableEq

/-- A fiber produced for one position of the new tree by
`reconcileChildren`. -/
structure NewFiber where
  ftype : FiberType
  props : Props
  dom : Option Nat
  alternate : Option OldFiber
  effectTag : EffectTag
deriving DecidableEq

/-- The UPDATE fiber built in the `sameType` branch: old type, new props,
the old fiber's host node, `alternate` pointing at the old fiber. -/
def updateFiberOf (o : OldFiber) (e : LElement) : NewFiber :=
  { ftype := o.ftype, props := e.props, dom := o.dom
    alternate := some o, effectTag := .UPDATE }

/-- The PLACEMENT fiber built in the `element && !sameType` branch: the
element's type and props, no host node yet, no `alternate`. -/
def placementFiberOf (e : LElement) : NewFiber :=
  { ftype := e.etype, props := e.props, dom := none
    alternate := none, effectTag := .PLACEMENT }

/-- The mutation `oldFiber.effectTag = "DELETION"` applied in the
`oldFiber && !sameType` branch. -/
def markDeleted (o : OldFiber) : OldFiber :=
  { o with effectTag := some .DELETION }

/-- `reconcileChildren(wipFiber, elements)`'s loop
(`while (index < elements.length || oldFiber != null)`), walking the old
sibling chain and the new element sequence in lockstep by position.  The
first result component has one entry per loop iteration: the `newFiber`
produced at that position (`none` at pure-deletion positions, where the
source keeps `newFiber = null`).  The second component is the suffix this
call pushes onto the global `deletions` list, in push order. -/
def reconcileChildren : List OldFiber → List LElement → List (Option NewFiber) × List OldFiber
  | [], [] => ([], [])
  | o :: olds, [] =>
    let r := reconcileChildren olds []
    (none :: r.1, markDeleted o :: r.2)
  | [], e :: els =>
    let r := reconcileChildren [] els
    (some (placementFiberOf e) :: r.1, r.2)
  | o :: olds, e :: els =>
    let r := reconcileChildren olds els
    if e.etype = o.ftype then
      (some (updateFiberOf o e) :: r.1, r.2)
    else
      (some (placementFiberOf e) :: r.1, markDeleted o :: r.2)

/-- A fiber of a committed work list as `commitWork` consumes it: its owned
host node (by id), its props, its alternate's props (absent when
`alternate` is null), its `effectTag`, and the `child`/`sibling` links
`commitWork` recurses into. -/
inductive CFiber where
  | mk : Option Nat → Props → Option Props → Option EffectTag →
      Option CFiber → Option CFiber → CFiber

/-- The `dom` field (owned host node id, null for function components and
not-yet-placed fibers). -/
def CFiber.dom : CFiber → Option Nat
  | .mk d _ _ _ _ _ => d

/-- The fiber's props. -/
def CFiber.props : CFiber → Props
  | .mk _ p _ _ _ _ => p

/-- `fiber.alternate.props` — `none` models `alternate` being null. -/
def CFiber.alternateProps : CFiber → Option Props
  | .mk _ _ a _ _ _ => a

/-- The fiber's `effectTag`. -/
def CFiber.effectTag : CFiber → Option EffectTag
  | .mk _ _ _ t _ _ => t

/-- The fiber's first child. -/
def CFiber.child : CFiber → Option CFiber
  | .mk _ _ _ _ c _ => c

/-- The fiber's next sibling. -/
def CFiber.sibling : CFiber → Option CFiber
  | .mk _ _ _ _ _ s => s

/-- One host-tree mutation issued during commit: `appendChild`,
`updateDom` on an existing node (with the prop operations it performs), or
`removeChild`. -/
inductive DomOp where
  | append : Nat → Nat → DomOp
  | update : Nat → List DomUpdate → DomOp
  | remove : Nat → Nat → DomOp
deriving DecidableEq

/-- `commitDeletion(fiber, domParent)`: removes the fiber's host node, or
recurses into the first child when the fiber owns none.  A dom-less fiber
with no child makes the source recurse on `undefined` and fault on
`fiber.dom`. -/
def commitDeletion (domParent : Nat) : CFiber → Except JsErr (List DomOp)
  | .mk dom _ _ _ child _ =>
    match dom with
    | some d => .ok [DomOp.remove domParent d]
    | none =>
      match child with
      | some c => commitDeletion domParent c
      | none => .error .typeError

/-- `commitWork(fiber)`: applies the fiber's own effect (PLACEMENT append,
UPDATE prop-diff via `updateDom`, DELETION removal), then recurses into
`fiber.child` and `fiber.sibling` — also after a DELETION.  `domParent` is
the host node of the nearest dom-owning ancestor, which the source finds
by climbing `parent` links; the recursion passes the fiber's own dom (when
present) down to its child and the unchanged `domParent` to its sibling,
which is exactly what that climb resolves to. -/
def commitWork (domParent : Nat) : Option CFiber → Except JsErr (List DomOp)
  | none => .ok []
  | some (.mk dom props altProps tag child sibling) => do
    let own : List DomOp ←
      match tag, dom with
      | some .PLACEMENT, some d => pure [DomOp.append domParent d]
      | some .UPDATE, some d =>
        match altProps with
        | none => Except.error .typeError
        | some pp => pure [DomOp.update d (updateDom pp props)]
      | some .DELETION, _ => commitDeletion domParent (.mk dom props altProps tag child sibling)
      | _, _ => pure []
    let childOps ← commitWork (dom.getD domParent) child
    let siblingOps ← commitWork domParent sibling
    pure (own ++ childOps ++ siblingOps)

/-- The fields of a work-phase fiber that `render`, `setState`,
`performUnitOfWork`'s dispatch, `updateHostComponent`,
`updateFunctionComponent` and `commitRoot` read or write.  `ftype = none`
models a fiber object created without a `type` field (the synthetic root);
`cleanups`/`effects` being `none` models those fields being absent
(`undefined`), and callbacks are carried by reference id. -/
structure WFiber where
  ftype : Option FiberType
  dom : Option Nat
  children : List LElement
  alternate : Option Nat
  cleanups : Option (List Nat)
  effects : Option (List Nat)
  child : Option CFiber

/-- The `wipRoot` object literal built by `render(element, container)`:
`{ dom: container, props: { children: [element] }, alternate: currentRoot }`
— no `type`, no `cleanups`, no `effects`, no `child` yet. -/
def renderWipRoot (container : Nat) (element : LElement) (currentRoot : Option Nat) : WFiber :=
  { ftype := none, dom := some container, children := [element]
    alternate := currentRoot, cleanups := none, effects := none, child := none }

/-- The `wipRoot` object literal built inside `setState`:
`{ dom: currentRoot.dom, props: currentRoot.props, alternate: currentRoot }`
— again without `cleanups`/`effects`. -/
def setStateWipRoot (currentDom : Option Nat) (currentChildren : List LElement)
    (currentRootId : Nat) : WFiber :=
  { ftype := none, dom := currentDom, children := currentChildren
    alternate := some currentRootId, cleanups := none, effects := none, child := none }

/-- `fiber.type instanceof Function` — false for host tags and for a fiber
with no `type` field at all. -/
def isFunctionComponent (f : WFiber) : Bool :=
  match f.ftype with
  | some (.comp _) => true
  | _ => false

/-- The field writes of `updateHostComponent(fiber)`: create the host node
if the fiber owns none (`freshDom` is the id `createDom` returns).  It
never touches `cleanups`, `effects` or `hooks`; its child reconciliation
is modelled by `reconcileChildren`. -/
def updateHostComponent (freshDom : Nat) (f : WFiber) : WFiber :=
  match f.dom with
  | none => { f with dom := some freshDom }
  | some _ => f

/-- The field writes of `updateFunctionComponent(fiber)`:
`wipFiber.hooks = []; wipFiber.effects = []; wipFiber.cleanups = []` — the
only place in the source where `effects`/`cleanups` are ever assigned.
Running the component body and reconciling its children are modelled by
the hook functions and `reconcileChildren`. -/
def updateFunctionComponent (f : WFiber) : WFiber :=
  { f with cleanups := some [], effects := some [] }

/-- The body of `performUnitOfWork` before the depth-first advance:
dispatch on `fiber.type instanceof Function`. -/
def performUnitOfWorkUpdate (freshDom : Nat) (f : WFiber) : WFiber :=
  if isFunctionComponent f then updateFunctionComponent f
  else updateHostComponent freshDom f

/-- One observable step of `commitRoot`, in emission order: a cleanup
callback invocation, a host-tree mutation, or an effect callback
invocation. -/
inductive CEvent where
  | cleanup : Nat → CEvent
  | mut : DomOp → CEvent
  | effect : Nat → CEvent
deriving DecidableEq

/-- Whether a commit event is a host-tree mutation. -/
def CEvent.isMut : CEvent → Bool
  | .mut _ => true
  | _ => false

/-- The two tree-root pointers `commitRoot` writes last:
`currentRoot = wipRoot; wipRoot = null`. -/
structure RootsState where
  currentRoot : Option WFiber
  wipRoot : Option WFiber

/-- `deletions.forEach(commitWork)`: each entry carries the host node of
the deleted fiber's nearest dom-owning ancestor (what the `parent` climb
in `commitWork` resolves to) together with the fiber itself. -/
def commitDeletionList : List (Nat × CFiber) → Except JsErr (List DomOp)
  | [] => .ok []
  | (dp, f) :: rest => do
    let ops ← commitWork dp (some f)
    let restOps ← commitDeletionList rest
    pure (ops ++ restOps)

/-- `commitRoot()`, in source order: iterate `wipRoot.cleanups` (a fault
when the field is absent), commit the deletions work list, commit the new
tree from `wipRoot.child` (the `domParent` climb needs `wipRoot.dom`),
iterate `wipRoot.effects` (again a fault when absent), then promote
`wipRoot` to `currentRoot` and clear `wipRoot`. -/
def commitRoot (root : WFiber) (deletions : List (Nat × CFiber)) :
    Except JsErr (List CEvent × RootsState) :=
  match root.cleanups with
  | none => .error .typeError
  | some cs =>
    match commitDeletionList deletions with
    | .error e => .error e
    | .ok delOps =>
      let treeResult : Except JsErr (List DomOp) :=
        match root.child with
        | none => .ok []
        | some c =>
          match root.dom with
          | none => .error .typeError
          | some rd => commitWork rd (some c)
      match treeResult with
      | .error e => .error e
      | .ok treeOps =>
        match root.effects with
        | none => .error .typeError
        | some es =>
          .ok (cs.map CEvent.cleanup
                ++ (delOps ++ treeOps).map CEvent.mut
                ++ es.map CEvent.effect,
               { currentRoot := some root, wipRoot := none })

/-- A state hook record `{ state, queue }`: the state value exposed by the
render that created the record, and the updater functions enqueued on it
since. -/
structure StateHook (V : Type) where
  state : V
  queue : List (V → V)

/-- The body of `useState(initial)` given the prior record found at
`wipFiber.alternate.hooks[hookIndex]` (or `none`): seed from the old state
(else `initial`), replay the old queue in order
(`actions.forEach(action => hook.state = action(hook.state))`), start a
fresh empty queue. -/
def useStateHook {V : Type} (oldHook : Option (StateHook V)) (initial : V) : StateHook V :=
  let base : V :=
    match oldHook with
    | some h => h.state
    | none => initial
  let actions : List (V → V) :=
    match oldHook with
    | some h => h.queue
    | none => []
  { state := actions.foldl (fun s a => a s) base, queue := [] }

/-- The hook-record write of `setState(action)`: `hook.queue.push(action)`.
The state field is untouched; the accompanying scheduler writes are
`setStateWipRoot` plus resetting `deletions` and `nextUnitOfWork`. -/
def setStateEnqueue {V : Type} (h : StateHook V) (action : V → V) : StateHook V :=
  { h with queue := h.queue ++ [action] }

/-- An effect hook record `{ dependencies, cleanup }`.  `dependencies` is
`none` when `useEffect` was called without a dependency array, and
`cleanup` carries the callback id recorded by a previous commit. -/
structure EffectHook where
  dependencies : Option (List JSValue)
  cleanup : Option Nat
deriving DecidableEq

/-- The per-fiber hook stores `useEffect` writes through `wipFiber`:
`hooks`, `effects` and `cleanups` (all initialised to `[]` by
`updateFunctionComponent`), with callbacks by id. -/
structure HookStores where
  hooks : List EffectHook
  effects : List Nat
  cleanups : List Nat
deriving DecidableEq

/-- `dependencies.some((dep, i) => dep !== oldHook.dependencies[i])` —
`Array.prototype.some` visits elements left to right and short-circuits on
the first `true`; evaluating the predicate reads `oldHook.dependencies[i]`,
which faults when that field is absent (`undefined[i]`); an index past the
end of the old array reads as `undefined`. -/
def depsSomeChanged : List JSValue → Nat → Option (List JSValue) → Except JsErr Bool
  | [], _, _ => .ok false
  | d :: ds, i, oldDeps =>
    match oldDeps with
    | none => .error .typeError
    | some ods =>
      if d ≠ (ods[i]?).getD JSValue.undefined then .ok true
      else depsSomeChanged ds (i + 1) oldDeps

/-- `useEffect(callback, dependencies)` given the prior record found at
`wipFiber.alternate.hooks[hookIndex]` (or `none`): `hasChanged` starts
`true` and, when a prior record exists, becomes
`dependencies.some(...)` — a fault when `dependencies` is absent.  When
changed, the old cleanup (if recorded) is pushed onto `wipFiber.cleanups`
and the callback onto `wipFiber.effects`; a fresh record
`{ dependencies, cleanup: null }` is always pushed onto `wipFiber.hooks`. -/
def useEffect (callback : Nat) (dependencies : Option (List JSValue))
    (oldHook : Option EffectHook) (fib : HookStores) : Except JsErr HookStores := do
  let hasChanged : Bool ←
    match oldHook with
    | none => pure true
    | some oh =>
      match dependencies with
      | none => Except.error .typeError
      | some ds => depsSomeChanged ds 0 oh.dependencies
  let fib1 : HookStores :=
    if hasChanged then
      { fib with
        cleanups :=
          match oldHook with
          | some oh =>
            match oh.cleanup with
            | some c => fib.cleanups ++ [c]
            | none => fib.cleanups
          | none => fib.cleanups
        effects := fib.effects ++ [callback] }
    else fib
  pure { fib1 with hooks := fib1.hooks ++ [{ dependencies := dependencies, cleanup := none }] }

/-- The names the module exports:
`export const Loush = { createElement, render, useState }`. -/
def LoushExports : List String :=
  ["createElement", "render", "useState"]

/-- The top-level functions defined in the module file, in source order. -/
def LoushModuleFunctions : List String :=
  ["createElement", "createTextElement", "createDom", "updateDom",
   "commitRoot", "commitWork", "commitDeletion", "render", "workLoop",
   "performUnitOfWork", "updateFunctionComponent", "useEffect", "useState",
   "updateHostComponent", "reconcileChildren"]

/-- A fiber tree as the walk sees it: one node per unit of work (id), with
its ordered children.  `child` is the head of the children list and
`sibling` the next entry of the enclosing list, exactly the
singly-linked-children/singly-linked-siblings encoding of the source. -/
inductive VTree where
  | node : Nat → List VTree → VTree

/-- The id of a tree node. -/
def VTree.nid : VTree → Nat
  | .node i _ => i

/-- The children of a tree node. -/
def VTree.kids : VTree → List VTree
  | .node _ cs => cs

mutual

/-- Number of nodes of a tree. -/
def VTree.size : VTree → Nat
  | .node _ cs => 1 + VTree.sizeL cs

/-- Number of nodes of a forest. -/
def VTree.sizeL : List VTree → Nat
  | [] => 0
  | t :: ts => VTree.size t + VTree.sizeL ts

end

mutual

/-- Depth-first, children-before-siblings visit order of a tree. -/
def preorder : VTree → List Nat
  | .node i cs => i :: preorderL cs

/-- Depth-first visit order of a forest. -/
def preorderL : List VTree → List Nat
  | [] => []
  | t :: ts => preorder t ++ preorderL ts

end

/-- The `nextUnitOfWork` cursor: the fiber about to be processed, its
not-yet-visited right siblings, and — per ancestor, innermost first — that
ancestor's not-yet-visited right siblings.  This is exactly the state the
source encodes through the `child`/`sibling`/`parent` links. -/
structure Cursor where
  cur : VTree
  rights : List VTree
  ups : List (List VTree)

/-- The upward half of `performUnitOfWork`'s advance: climb the `parent`
chain looking for the nearest ancestor level that still has a `sibling`,
and return nothing once the climb unwinds past the root. -/
def climbUp : List VTree → List (List VTree) → Option Cursor
  | s :: ss, ups => some { cur := s, rights := ss, ups := ups }
  | [], [] => none
  | [], u :: us => climbUp u us

/-- The advance performed at the end of `performUnitOfWork`: return
`fiber.child` when present, else the nearest ancestor `sibling` via
`climbUp`. -/
def advance (c : Cursor) : Option Cursor :=
  match c.cur with
  | .node _ (k :: ks) => some { cur := k, rights := ks, ups := c.rights :: c.ups }
  | .node _ [] => climbUp c.rights c.ups

/-- Units of work still ahead of a cursor (used as the termination measure
of the walk). -/
def Cursor.remaining (c : Cursor) : Nat :=
  VTree.size c.cur + VTree.sizeL c.rights + (c.ups.map VTree.sizeL).sum

/-- The full uninterrupted walk from a cursor: the ids of the units of
work processed, in processing order (`performUnitOfWork` applied until it
returns nothing). -/
def runWalk (c : Cursor) : List Nat :=
  c.cur.nid ::
    (match h : advance c with
     | none => []
     | some c2 => runWalk c2)
termination_by c.remaining
decreasing_by
  have aux : ∀ (ups : List (List VTree)) (rs : List VTree) (c3 : Cursor),
      climbUp rs ups = some c3 →
      c3.remaining ≤ VTree.sizeL rs + (ups.map VTree.sizeL).sum := by
    intro ups
    induction ups with
    | nil =>
      intro rs c3 hcl
      cases rs with
      | nil => simp [climbUp] at hcl
      | cons s ss =>
        simp only [climbUp] at hcl
        cases hcl
        simp [Cursor.remaining, VTree.sizeL]
    | cons u us ih =>
      intro rs c3 hcl
      cases rs with
      | nil =>
        simp only [climbUp] at hcl
        have h2 := ih u c3 hcl
        simp only [List.map, List.sum_cons, VTree.sizeL]
        omega
      | cons s ss =>
        simp only [climbUp] at hcl
        cases hcl
        simp [Cursor.remaining, VTree.sizeL]
  rcases c with ⟨cur, rights, ups⟩
  cases cur with
  | node i ks =>
    cases ks with
    | nil =>
      simp only [advance] at h
      have h3 := aux ups rights c2 h
      simp only [Cursor.remaining, VTree.size] at h3 ⊢
      omega
    | cons k ks2 =>
      simp only [advance] at h
      cases h
      simp only [Cursor.remaining, VTree.size, VTree.sizeL, List.map, List.sum_cons]
      omega

/-- The walk from a possibly-exhausted cursor. -/
def runWalkO : Option Cursor → List Nat
  | none => []
  | some c => runWalk c

/-- `advance` lifted to the possibly-exhausted cursor. -/
def advanceO (oc : Option Cursor) : Option Cursor :=
  oc.bind advance

/-- `advanceO` iterated. -/
def advanceN : Nat → Option Cursor → Option Cursor
  | 0, oc => oc
  | n + 1, oc => advanceN n (advanceO oc)

/-- One `workLoop` slice: the inner
`while (nextUnitOfWork && !shouldYield)` loop, where the deadline
collaborator lets `budget` units run before forcing a yield.  Returns the
ids processed this slice and the saved `nextUnitOfWork` cursor. -/
def workSlice : Nat → Option Cursor → List Nat × Option Cursor
  | 0, oc => ([], oc)
  | _ + 1, none => ([], none)
  | b + 1, some c =>
    let r := workSlice b (advance c)
    (c.cur.nid :: r.1, r.2)

/-- Successive `workLoop` invocations (one per `requestIdleCallback`
opportunity), each with the unit budget its deadline allows: the
concatenated processing order and the final cursor. -/
def workLoopSlices : List Nat → Option Cursor → List Nat × Option Cursor
  | [], oc => ([], oc)
  | b :: bs, oc =>
    let r1 := workSlice b oc
    let r2 := workLoopSlices bs r1.2
    (r1.1 ++ r2.1, r2.2)

/-- The cursor `render` seeds: the root fiber with no pending siblings. -/
def startCursor (t : VTree) : Cursor :=
  { cur := t, rights := [], ups := [] }

/-- Concrete sample fibers and elements used to instantiate the general
theorems below. -/
def exOldDiv : OldFiber :=
  { ftype := .tag "div", dom := some 1, props := [], effectTag := some .UPDATE }

/-- A second sample old fiber (a `p` host). -/
def exOldP : OldFiber :=
  { ftype := .tag "p", dom := some 2, props := [], effectTag := some .UPDATE }

/-- A sample `div` element. -/
def exElDiv : LElement := .mk (.tag "div") [] []

/-- A sample `span` element. -/
def exElSpan : LElement := .mk (.tag "span") [] []

theorem foldl_setStateEnqueue {V : Type} (us : List (V → V)) (h : StateHook V) :
    (us.foldl setStateEnqueue h).state = h.state ∧
    (us.foldl setStateEnqueue h).queue = h.queue ++ us := by
  induction us generalizing h with
  | nil => simp
  | cons u us ih =>
    simp only [List.foldl_cons]
    rcases ih (setStateEnqueue h u) with ⟨h1, h2⟩
    constructor
    · rw [h1]; rfl
    · rw [h2]; simp [setStateEnqueue]

/-- C10: the module's public export surface is exactly
`{createElement, render, useState}` — `useEffect` is implemented in the
module (it is one of its top-level functions) but is not a member of the
exported `Loush` object. -/
theorem loush_export_surface :
    LoushExports = ["createElement", "render", "useState"] ∧
    "createElement" ∈ LoushExports ∧
    "render" ∈ LoushExports ∧
    "useState" ∈ LoushExports ∧
    "useEffect" ∈ LoushModuleFunctions ∧
    "useEffect" ∉ LoushExports := by
  refine ⟨rfl, ?_, ?_, ?_, ?_, ?_⟩ <;> decide

/-- C4: `setState(updater)` only enqueues the updater — the `state` field
already exposed by the current render is untouched — and when the next
render reaches the same hook position, `useState` returns the left-fold of
all updaters enqueued since the previous render, in enqueue order, over
the previous committed state, with a fresh empty queue. -/
theorem useState_replays_enqueued_updaters {V : Type} (s initial : V) (us : List (V → V)) :
    (∀ (h : StateHook V) (a : V → V),
        (setStateEnqueue h a).state = h.state ∧
        (setStateEnqueue h a).queue = h.queue ++ [a]) ∧
    (useStateHook (some (us.foldl setStateEnqueue { state := s, queue := [] })) initial).state
      = us.foldl (fun st u => u st) s ∧
    (useStateHook (some (us.foldl setStateEnqueue { state := s, queue := [] })) initial).queue
      = [] := by
  refine ⟨fun h a => ⟨rfl, rfl⟩, ?_, rfl⟩
  rcases foldl_setStateEnqueue us ({ state := s, queue := [] } : StateHook V) with ⟨h1, h2⟩
  simp only [useStateHook, h1, h2, List.nil_append]

/-- C2: `render` and `setState` both build `wipRoot` without `cleanups` or
`effects` fields; the synthetic root has no `type`, so the work loop
routes it to `updateHostComponent`, which never assigns those fields —
`updateFunctionComponent` (run only for function-component fibers) is the
sole assigner.  Consequently `commitRoot`, which reads
`wipRoot.cleanups`/`wipRoot.effects` from the root fiber itself, reads an
absent field on every commit and the `forEach` over it faults instead of
iterating the tree's collected callbacks. -/
theorem commitRoot_reads_absent_root_fields (container : Nat) (el : LElement)
    (cur : Option Nat) (dom : Option Nat) (children : List LElement) (rid : Nat)
    (dels : List (Nat × CFiber)) (freshDom : Nat) (f : WFiber) :
    (renderWipRoot container el cur).cleanups = none ∧
    (renderWipRoot container el cur).effects = none ∧
    (setStateWipRoot dom children rid).cleanups = none ∧
    (setStateWipRoot dom children rid).effects = none ∧
    isFunctionComponent (renderWipRoot container el cur) = false ∧
    isFunctionComponent (setStateWipRoot dom children rid) = false ∧
    performUnitOfWorkUpdate freshDom (renderWipRoot container el cur)
      = updateHostComponent freshDom (renderWipRoot container el cur) ∧
    (updateHostComponent freshDom f).cleanups = f.cleanups ∧
    (updateHostComponent freshDom f).effects = f.effects ∧
    (updateFunctionComponent f).cleanups = some [] ∧
    (updateFunctionComponent f).effects = some [] ∧
    commitRoot (renderWipRoot container el cur) dels = .error .typeError ∧
    commitRoot (setStateWipRoot dom children rid) dels = .error .typeError := by
  refine ⟨rfl, rfl, rfl, rfl, rfl, rfl, ?_, ?_, ?_, rfl, rfl, rfl, rfl⟩
  · simp [performUnitOfWorkUpdate, isFunctionComponent, renderWipRoot]
  · unfold updateHostComponent
    cases f.dom <;> rfl
  · unfold updateHostComponent
    cases f.dom <;> rfl

/-- C1 counterexample: a commit whose root carries one cleanup and whose
new tree contains one PLACEMENT produces the trace
`[cleanup 7, appendChild 1 5]` — the host mutation happens strictly
*after* a cleanup callback, refuting "all DOM mutations complete before
any cleanup callback" (the source runs `wipRoot.cleanups` first). -/
theorem commitRoot_mutation_after_cleanup :
    commitRoot
        { ftype := none, dom := some 1, children := [], alternate := none,
          cleanups := some [7], effects := some [],
          child := some (.mk (some 5) [] none (some .PLACEMENT) none none) } []
      = .ok ([CEvent.cleanup 7, CEvent.mut (DomOp.append 1 5)],
             { currentRoot := some
                 { ftype := none, dom := some 1, children := [], alternate := none,
                   cleanups := some [7], effects := some [],
                   child := some (.mk (some 5) [] none (some .PLACEMENT) none none) },
               wipRoot := none }) ∧
    [CEvent.cleanup 7, CEvent.mut (DomOp.append 1 5)].get? 0 = some (CEvent.cleanup 7) ∧
    ([CEvent.cleanup 7, CEvent.mut (DomOp.append 1 5)].get? 1).map CEvent.isMut
      = some true ∧
    (0 : Nat) < 1 := by
  refine ⟨?_, rfl, rfl, Nat.zero_lt_one⟩
  simp [commitRoot, commitDeletionList, commitWork, Bind.bind, Except.bind, Pure.pure, Except.pure]

/-- C1 amended: in every commit `commitRoot` completes without a fault
(in particular, when the root does carry `cleanups` and `effects` lists),
the trace is exactly the root's cleanups, then all DOM mutations of the
commit (deletion removals, then PLACEMENT insertions and UPDATE
prop-diffs), then the root's effects — so all cleanups run before any DOM
mutation, all DOM mutations complete before any effect, and all cleanups
run before any effect; afterwards `wipRoot` is promoted to `currentRoot`
and cleared. -/
theorem commitRoot_order_spec (root : WFiber) (dels : List (Nat × CFiber))
    (cs es : List Nat) (tr : List CEvent) (rs : RootsState)
    (hc : root.cleanups = some cs) (he : root.effects = some es)
    (hk : commitRoot root dels = .ok (tr, rs)) :
    (∃ mids : List CEvent,
        tr = cs.map CEvent.cleanup ++ mids ++ es.map CEvent.effect ∧
        ∀ ev ∈ mids, ev.isMut = true) ∧
    rs.currentRoot = some root ∧ rs.wipRoot = none := by
  unfold commitRoot at hk
  rw [hc] at hk
  rcases hdel : commitDeletionList dels with e | delOps <;> rw [hdel] at hk
  · cases hk
  rcases htree :
      (match root.child with
       | none => (.ok [] : Except JsErr (List DomOp))
       | some c =>
         match root.dom with
         | none => .error .typeError
         | some rd => commitWork rd (some c)) with e | treeOps <;>
    rw [htree] at hk
  · cases hk
  rw [he] at hk
  rcases hk with ⟨⟩
  refine ⟨⟨(delOps ++ treeOps).map CEvent.mut, rfl, ?_⟩, rfl, rfl⟩
  intro ev hev
  rcases List.mem_map.mp hev with ⟨op, _, rfl⟩
  rfl

/-- Witness for `commitRoot_order_spec` at a concrete faultless commit. -/
theorem commitRoot_order_spec_witness :
    (∃ mids : List CEvent,
        ([CEvent.cleanup 3, CEvent.effect 4] : List CEvent)
          = [3].map CEvent.cleanup ++ mids ++ [4].map CEvent.effect ∧
        ∀ ev ∈ mids, ev.isMut = true) ∧
    (some { ftype := none, dom := some 1, children := [], alternate := none,
            cleanups := some [3], effects := some [4],
            child := none } : Option WFiber)
      = some { ftype := none, dom := some 1, children := [], alternate := none,
               cleanups := some [3], effects := some [4], child := none } ∧
    (none : Option WFiber) = none := by
  exact commitRoot_order_spec
    { ftype := none, dom := some 1, children := [], alternate := none,
      cleanups := some [3], effects := some [4], child := none }
    [] [3] [4] [CEvent.cleanup 3, CEvent.effect 4]
    { currentRoot := some
        { ftype := none, dom := some 1, children := [], alternate := none,
          cleanups := some [3], effects := some [4], child := none },
      wipRoot := none }
    rfl rfl rfl

/-- C6 (code bug): diffing two old siblings away (new children `[]`) marks
both DELETION and queues both on the deletions list; but
`commitWork` recurses into a deleted fiber's old `child` and `sibling`
links after applying its removal, so the second sibling's DELETION tag is
consumed twice — once via the first entry's `sibling` recursion and once
via its own deletions-list entry.  Its host node (id 20) is removed twice,
and the second `removeChild` would throw in a real host.  This refutes
"consumed exactly once during commit". -/
theorem commitWork_consumes_deletion_twice :
    (reconcileChildren
        [{ ftype := .tag "p", dom := some 10, props := [], effectTag := some .PLACEMENT },
         { ftype := .tag "span", dom := some 20, props := [], effectTag := some .PLACEMENT }]
        []).2
      = [markDeleted { ftype := .tag "p", dom := some 10, props := [],
                       effectTag := some .PLACEMENT },
         markDeleted { ftype := .tag "span", dom := some 20, props := [],
                       effectTag := some .PLACEMENT }] ∧
    commitDeletionList
        [(1, .mk (some 10) [] none (some .DELETION) none
              (some (.mk (some 20) [] none (some .DELETION) none none))),
         (1, .mk (some 20) [] none (some .DELETION) none none)]
      = .ok [DomOp.remove 1 10, DomOp.remove 1 20, DomOp.remove 1 20] ∧
    ([DomOp.remove 1 10, DomOp.remove 1 20, DomOp.remove 1 20].count
        (DomOp.remove 1 20)) = 2 := by
  refine ⟨?_, ?_, ?_⟩
  · simp [reconcileChildren, markDeleted]
  · simp [commitDeletionList, commitWork, commitDeletion, Bind.bind, Except.bind,
      Pure.pure, Except.pure]
  · decide

theorem reconcile_fst_get (olds : List OldFiber) (els : List LElement) (i : Nat) :
    (reconcileChildren olds els).1.get? i =
      match olds.get? i, els.get? i with
      | some o, some e =>
        if e.etype = o.ftype then some (some (updateFiberOf o e))
        else some (some (placementFiberOf e))
      | none, some e => some (some (placementFiberOf e))
      | some _, none => some none
      | none, none => none := by
  induction olds generalizing els i with
  | nil =>
    induction els generalizing i with
    | nil => cases i <;> simp [reconcileChildren]
    | cons e es ihe =>
      cases i with
      | zero => simp [reconcileChildren]
      | succ n => simpa [reconcileChildren] using ihe n
  | cons o os iho =>
    cases els with
    | nil =>
      cases i with
      | zero => simp [reconcileChildren]
      | succ n => simpa [reconcileChildren] using iho [] n
    | cons e es =>
      by_cases h : e.etype = o.ftype
      · cases i with
        | zero => simp [reconcileChildren, h]
        | succ n => simpa [reconcileChildren, h] using iho es n
      · cases i with
        | zero => simp [reconcileChildren, h]
        | succ n => simpa [reconcileChildren, h] using iho es n

theorem reconcile_snd_mem (olds : List OldFiber) (els : List LElement) :
    ∀ i o, olds.get? i = some o →
      (∀ e, els.get? i = some e → e.etype ≠ o.ftype) →
      markDeleted o ∈ (reconcileChildren olds els).2 := by
  induction olds generalizing els with
  | nil => intro i o h; simp at h
  | cons o2 os iho =>
    intro i o h hmis
    cases els with
    | nil =>
      cases i with
      | zero =>
        simp only [List.get?] at h
        cases h
        simp [reconcileChildren]
      | succ n =>
        simp only [List.get?] at h
        have := iho [] n o h (by intro e he; simp at he)
        simp [reconcileChildren]
        right
        exact this
    | cons e es =>
      cases i with
      | zero =>
        simp only [List.get?] at h
        cases h
        have hne := hmis e rfl
        simp [reconcileChildren, hne]
      | succ n =>
        simp only [List.get?] at h
        have hmem := iho es n o h (by intro e2 he2; exact hmis e2 he2)
        by_cases hty : e.etype = o2.ftype
        · simp [reconcileChildren, hty]
          exact hmem
        · simp [reconcileChildren, hty]
          right
          exact hmem

theorem reconcile_fst_length (olds : List OldFiber) (els : List LElement) :
    (reconcileChildren olds els).1.length = max olds.length els.length := by
  induction olds generalizing els with
  | nil =>
    induction els with
    | nil => simp [reconcileChildren]
    | cons e es ihe => simp [reconcileChildren, ihe]
  | cons o os iho =>
    cases els with
    | nil =>
      have := iho []
      simp [reconcileChildren, this]
    | cons e es =>
      by_cases h : e.etype = o.ftype
      · simp [reconcileChildren, h, iho es]
        omega
      · simp [reconcileChildren, h, iho es]
        omega

/-- C3: positional diffing.  Same type at a position ⇒ an UPDATE fiber
reusing the old fiber's host node, with `alternate` the old fiber and the
new element's props; element present with a differing (or absent) old
fiber ⇒ a PLACEMENT fiber with null host node and null `alternate`; old
fiber present with a differing (or absent) element ⇒ the old fiber is
marked DELETION and appended to the pending-deletions list, and the fiber
occupying that position in the new tree (if any) does not reference it
(`alternate` is null). -/
theorem reconcileChildren_position_spec (olds : List OldFiber) (els : List LElement) :
    (∀ i o e, olds.get? i = some o → els.get? i = some e → e.etype = o.ftype →
        (reconcileChildren olds els).1.get? i = some (some (updateFiberOf o e)) ∧
        (updateFiberOf o e).effectTag = .UPDATE ∧
        (updateFiberOf o e).dom = o.dom ∧
        (updateFiberOf o e).alternate = some o ∧
        (updateFiberOf o e).props = e.props) ∧
    (∀ i e, els.get? i = some e →
        (∀ o, olds.get? i = some o → e.etype ≠ o.ftype) →
        (reconcileChildren olds els).1.get? i = some (some (placementFiberOf e)) ∧
        (placementFiberOf e).effectTag = .PLACEMENT ∧
        (placementFiberOf e).dom = none ∧
        (placementFiberOf e).alternate = none) ∧
    (∀ i o, olds.get? i = some o →
        (∀ e, els.get? i = some e → e.etype ≠ o.ftype) →
        markDeleted o ∈ (reconcileChildren olds els).2 ∧
        (markDeleted o).effectTag = some .DELETION ∧
        ∀ nf, (reconcileChildren olds els).1.get? i = some (some nf) →
          nf.alternate = none) := by
  refine ⟨?_, ?_, ?_⟩
  · intro i o e h1 h2 h3
    refine ⟨?_, rfl, rfl, rfl, rfl⟩
    rw [reconcile_fst_get, h1, h2]
    simp [h3]
  · intro i e h1 h2
    refine ⟨?_, rfl, rfl, rfl⟩
    rw [reconcile_fst_get, h1]
    cases ho : olds.get? i with
    | none => simp
    | some o => simp [h2 o ho]
  · intro i o h1 h2
    refine ⟨reconcile_snd_mem olds els i o h1 h2, rfl, ?_⟩
    intro nf hnf
    rw [reconcile_fst_get, h1] at hnf
    cases he : els.get? i with
    | none =>
      rw [he] at hnf
      simp at hnf
    | some e =>
      rw [he] at hnf
      simp [h2 e he] at hnf
      rw [hnf.symm]
      rfl

/-- Witness for `reconcileChildren_position_spec` at a concrete diff:
old chain `div, p`, new elements `div, span` — position 0 is an UPDATE,
position 1 a PLACEMENT plus a DELETION of the old `p` fiber. -/
theorem reconcileChildren_position_spec_witness :
    ((reconcileChildren [exOldDiv, exOldP] [exElDiv, exElSpan]).1.get? 0
        = some (some (updateFiberOf exOldDiv exElDiv)) ∧
      (updateFiberOf exOldDiv exElDiv).effectTag = .UPDATE ∧
      (updateFiberOf exOldDiv exElDiv).dom = exOldDiv.dom ∧
      (updateFiberOf exOldDiv exElDiv).alternate = some exOldDiv ∧
      (updateFiberOf exOldDiv exElDiv).props = exElDiv.props) ∧
    ((reconcileChildren [exOldDiv, exOldP] [exElDiv, exElSpan]).1.get? 1
        = some (some (placementFiberOf exElSpan)) ∧
      (placementFiberOf exElSpan).effectTag = .PLACEMENT ∧
      (placementFiberOf exElSpan).dom = none ∧
      (placementFiberOf exElSpan).alternate = none) ∧
    (markDeleted exOldP ∈ (reconcileChildren [exOldDiv, exOldP] [exElDiv, exElSpan]).2 ∧
      (markDeleted exOldP).effectTag = some .DELETION ∧
      ∀ nf, (reconcileChildren [exOldDiv, exOldP] [exElDiv, exElSpan]).1.get? 1
          = some (some nf) → nf.alternate = none) := by
  have th := reconcileChildren_position_spec [exOldDiv, exOldP] [exElDiv, exElSpan]
  refine ⟨th.1 0 exOldDiv exElDiv rfl rfl rfl, th.2.1 1 exElSpan rfl ?_, th.2.2 1 exOldP rfl ?_⟩
  · intro o h
    have ho : o = exOldP := by
      simpa [exOldDiv, exOldP, List.get?] using h.symm
    rw [ho]
    decide
  · intro e h
    have he : e = exElSpan := by
      simpa [exElDiv, exElSpan, List.get?] using h.symm
    rw [he]
    decide

/-- C8: the reconciliation loop runs exactly while an old fiber remains in
the chain or the index is below the element count — one iteration per
position, `max` of the two lengths in total (the embedding is structurally
recursive, so the loop terminates on every finite input) — and both
shrink and grow are fully processed: every surplus old fiber is visited
and queued for deletion, and every surplus new element is visited and
produces a PLACEMENT fiber. -/
theorem reconcileChildren_processes_all_positions (olds : List OldFiber)
    (els : List LElement) :
    (reconcileChildren olds els).1.length = max olds.length els.length ∧
    (∀ i o, olds.get? i = some o → els.length ≤ i →
        markDeleted o ∈ (reconcileChildren olds els).2) ∧
    (∀ i e, els.get? i = some e → olds.length ≤ i →
        (reconcileChildren olds els).1.get? i = some (some (placementFiberOf e))) := by
  refine ⟨reconcile_fst_length olds els, ?_, ?_⟩
  · intro i o h hle
    refine reconcile_snd_mem olds els i o h ?_
    intro e he
    rw [List.get?_eq_none.mpr hle] at he
    cases he
  · intro i e h hle
    rw [reconcile_fst_get, List.get?_eq_none.mpr hle, h]

/-- Witness for `reconcileChildren_processes_all_positions`: a shrink
(two old fibers, one element) and a grow (one old fiber, two elements). -/
theorem reconcileChildren_processes_all_positions_witness :
    (reconcileChildren [exOldDiv, exOldP] [exElDiv]).1.length
        = max [exOldDiv, exOldP].length [exElDiv].length ∧
    markDeleted exOldP ∈ (reconcileChildren [exOldDiv, exOldP] [exElDiv]).2 ∧
    (reconcileChildren [exOldDiv] [exElDiv, exElSpan]).1.get? 1
        = some (some (placementFiberOf exElSpan)) := by
  have th1 := reconcileChildren_processes_all_positions [exOldDiv, exOldP] [exElDiv]
  have th2 := reconcileChildren_processes_all_positions [exOldDiv] [exElDiv, exElSpan]
  exact ⟨th1.1, th1.2.1 1 exOldP rfl (by decide), th2.2.2 1 exElSpan rfl (by decide)⟩

theorem depsSomeChanged_enumFrom (ds : List JSValue) (i : Nat) (ods : List JSValue) :
    depsSomeChanged ds i (some ods) =
      .ok ((ds.enumFrom i).any fun p => p.2 != (ods[p.1]?).getD JSValue.undefined) := by
  induction ds generalizing i with
  | nil => simp [depsSomeChanged]
  | cons d ds ih =>
    by_cases h : d = (ods[i]?).getD JSValue.undefined
    · simp [depsSomeChanged, h, ih (i + 1)]
    · simp [depsSomeChanged, h]

/-- C5 counterexample: `useEffect(cb)` called with no dependency list
while a prior hook record exists makes the source evaluate
`dependencies.some(...)` on `undefined` — a TypeError, not an
always-changed policy.  (The claim's "an always-changed policy applies
when no dependency list was tracked" predicts the callback is scheduled;
instead the call faults and nothing is scheduled.) -/
theorem useEffect_without_deps_faults :
    useEffect 0 none (some { dependencies := none, cleanup := none })
        { hooks := [], effects := [], cleanups := [] }
      = .error .typeError := rfl

/-- C5 amended: with no prior record the effect is always scheduled; with
a prior record and dependency lists tracked on both sides, the callback
(and the prior record's cleanup, if recorded) is scheduled exactly when
some element of the new dependency list differs by identity from the
prior record's dependency at the same index (an index past the old list's
end reads as `undefined`); in particular, when the lists are equal,
neither the callback nor the previous cleanup is scheduled.  A fresh hook
record is pushed in every case.  (When no dependency list is passed while
a prior record exists, the call faults instead — see the counterexample.) -/
theorem useEffect_schedules_iff_deps_changed :
    (∀ (cb : Nat) (deps : Option (List JSValue)) (fib : HookStores),
        useEffect cb deps none fib =
          .ok { hooks := fib.hooks ++ [{ dependencies := deps, cleanup := none }],
                effects := fib.effects ++ [cb], cleanups := fib.cleanups }) ∧
    (∀ (cb : Nat) (ds ods : List JSValue) (oc : Option Nat) (fib : HookStores),
        useEffect cb (some ds) (some { dependencies := some ods, cleanup := oc }) fib =
          .ok (if ds.enum.any (fun p => p.2 != (ods[p.1]?).getD JSValue.undefined)
               then { hooks := fib.hooks ++ [{ dependencies := some ds, cleanup := none }],
                      effects := fib.effects ++ [cb],
                      cleanups := fib.cleanups ++ oc.toList }
               else { hooks := fib.hooks ++ [{ dependencies := some ds, cleanup := none }],
                      effects := fib.effects, cleanups := fib.cleanups })) ∧
    (∀ (cb : Nat) (ds : List JSValue) (oc : Option Nat) (fib : HookStores),
        useEffect cb (some ds) (some { dependencies := some ds, cleanup := oc }) fib =
          .ok { hooks := fib.hooks ++ [{ dependencies := some ds, cleanup := none }],
                effects := fib.effects, cleanups := fib.cleanups }) := by
  have key : ∀ (cb : Nat) (ds ods : List JSValue) (oc : Option Nat) (fib : HookStores),
      useEffect cb (some ds) (some { dependencies := some ods, cleanup := oc }) fib =
        .ok (if ds.enum.any (fun p => p.2 != (ods[p.1]?).getD JSValue.undefined)
             then { hooks := fib.hooks ++ [{ dependencies := some ds, cleanup := none }],
                    effects := fib.effects ++ [cb],
                    cleanups := fib.cleanups ++ oc.toList }
             else { hooks := fib.hooks ++ [{ dependencies := some ds, cleanup := none }],
                    effects := fib.effects, cleanups := fib.cleanups }) := by
    intro cb ds ods oc fib
    have hd := depsSomeChanged_enumFrom ds 0 ods
    simp only [useEffect, List.enum]
    rw [hd]
    simp only [Bind.bind, Except.bind]
    by_cases hb :
        ((List.enumFrom 0 ds).any fun p => p.2 != (ods[p.1]?).getD JSValue.undefined) = true
    · cases oc <;> simp [hb, Pure.pure, Except.pure, Option.toList]
    · simp [hb, Pure.pure, Except.pure]
  refine ⟨fun cb deps fib => rfl, key, ?_⟩
  intro cb ds oc fib
  have h0 := key cb ds ds oc fib
  have hfalse : (ds.enum.any fun p => p.2 != (ds[p.1]?).getD JSValue.undefined)
      = false := by
    rw [List.any_eq_false]
    intro p hp
    have hg : ds[p.1]? = some p.2 := List.mem_enum_iff_getElem?.mp hp
    simp [hg]
  rw [h0, hfalse]
  simp

theorem isPrefixOf_on_take_two (l : List Char) :
    List.isPrefixOf ['o', 'n'] l = decide (l.take 2 = ['o', 'n']) := by
  cases l with
  | nil => simp [List.isPrefixOf]
  | cons c1 r =>
    cases r with
    | nil =>
      simp [List.isPrefixOf]
    | cons c2 r2 =>
      by_cases h1 : c1 = 'o' <;> by_cases h2 : c2 = 'n' <;>
        simp [List.isPrefixOf, h1, h2]
      · exact fun hh => h2 hh.symm
      · exact fun hh => h1 hh.symm
      · exact fun _ hh => h2 hh.symm

theorem isEvent_take_two (k : String) :
    isEvent k = decide (k.data.take 2 = ['o', 'n']) := by
  rw [isEvent]
  rw [show "on".data = ['o', 'n'] from rfl]
  exact isPrefixOf_on_take_two k.data

/-- C9: `updateDom` mutates only the passed node (its output is exactly a
list of operations on that node, no return value) in four passes: it
removes event listeners for keys starting with "on" that are absent from
`nextProps` or whose value changed; it resets to the empty value every
non-children, non-event key present in `prevProps` but absent from
`nextProps`; it assigns every non-children, non-event key of `nextProps`
that is new or changed; and it adds event listeners for every
"on"-prefixed key of `nextProps` that is new or changed — where the
listener type is the key minus the "on" prefix, lowercased. -/
theorem updateDom_four_passes (prev next : Props) :
    (updateDom prev next =
      ((prev.keys.filter (fun k =>
          (!(next.hasKey k) || prev.getJs k != next.getJs k) &&
          decide (k.data.take 2 = ['o', 'n']))).map
        (fun k => DomUpdate.removeListener (eventTypeOf k) (prev.getJs k)))
      ++ ((prev.keys.filter (fun k =>
          !(next.hasKey k) &&
          (decide (k ≠ "children") && !(decide (k.data.take 2 = ['o', 'n']))))).map
        DomUpdate.clearProp)
      ++ ((next.keys.filter (fun k =>
          (prev.getJs k != next.getJs k) &&
          (decide (k ≠ "children") && !(decide (k.data.take 2 = ['o', 'n']))))).map
        (fun k => DomUpdate.setProp k (next.getJs k)))
      ++ ((next.keys.filter (fun k =>
          (prev.getJs k != next.getJs k) &&
          decide (k.data.take 2 = ['o', 'n']))).map
        (fun k => DomUpdate.addListener (eventTypeOf k) (next.getJs k)))) ∧
    ∀ k : String, eventTypeOf k = ⟨(k.data.drop 2).map Char.toLower⟩ := by
  constructor
  · rw [updateDom]
    simp only [List.filter_filter]
    have h1 := List.filter_congr (l := prev.keys)
      (p := fun k => (!(next.hasKey k) || isNew prev next k) && isEvent k)
      (q := fun k => (!(next.hasKey k) || prev.getJs k != next.getJs k) &&
        decide (k.data.take 2 = ['o', 'n']))
      (fun a _ => by simp only [isNew, isEvent_take_two])
    have h2 := List.filter_congr (l := prev.keys)
      (p := fun k => isGone prev next k && isProperty k)
      (q := fun k => !(next.hasKey k) &&
        (decide (k ≠ "children") && !(decide (k.data.take 2 = ['o', 'n']))))
      (fun a _ => by simp only [isGone, isProperty, isEvent_take_two])
    have h3 := List.filter_congr (l := next.keys)
      (p := fun k => isNew prev next k && isProperty k)
      (q := fun k => (prev.getJs k != next.getJs k) &&
        (decide (k ≠ "children") && !(decide (k.data.take 2 = ['o', 'n']))))
      (fun a _ => by simp only [isNew, isProperty, isEvent_take_two])
    have h4 := List.filter_congr (l := next.keys)
      (p := fun k => isNew prev next k && isEvent k)
      (q := fun k => (prev.getJs k != next.getJs k) &&
        decide (k.data.take 2 = ['o', 'n']))
      (fun a _ => by simp only [isNew, isEvent_take_two])
    rw [h1, h2, h3, h4]
  · intro k
    exact congrArg String.mk (List.map_drop Char.toLower k.data 2).symm

theorem VTree_size_pos (t : VTree) : 1 ≤ VTree.size t := by
  cases t with
  | node i cs =>
    rw [VTree.size]
    omega

theorem climbUp_remaining (ups : List (List VTree)) (rs : List VTree) (c3 : Cursor)
    (hcl : climbUp rs ups = some c3) :
    c3.remaining ≤ VTree.sizeL rs + (ups.map VTree.sizeL).sum := by
  induction ups generalizing rs with
  | nil =>
    cases rs with
    | nil => simp [climbUp] at hcl
    | cons s ss =>
      simp only [climbUp] at hcl
      cases hcl
      simp [Cursor.remaining, VTree.sizeL]
  | cons u us ih =>
    cases rs with
    | nil =>
      simp only [climbUp] at hcl
      have h2 := ih u hcl
      simp only [List.map, List.sum_cons, VTree.sizeL]
      omega
    | cons s ss =>
      simp only [climbUp] at hcl
      cases hcl
      simp [Cursor.remaining, VTree.sizeL]

theorem advance_remaining (c c2 : Cursor) (h : advance c = some c2) :
    c2.remaining < c.remaining := by
  rcases c with ⟨cur, rights, ups⟩
  cases cur with
  | node i ks =>
    cases ks with
    | nil =>
      simp only [advance] at h
      have h3 := climbUp_remaining ups rights c2 h
      simp only [Cursor.remaining, VTree.size] at h3 ⊢
      omega
    | cons k ks2 =>
      simp only [advance] at h
      cases h
      simp only [Cursor.remaining, VTree.size, VTree.sizeL, List.map, List.sum_cons]
      omega

theorem runWalk_cons (c : Cursor) :
    runWalk c = c.cur.nid :: runWalkO (advance c) := by
  rw [runWalk]
  cases h : advance c with
  | none => simp [runWalkO]
  | some c2 => simp [runWalkO]

theorem climbUp_none_sound (ups : List (List VTree)) (rs : List VTree)
    (hcl : climbUp rs ups = none) :
    preorderL rs ++ (ups.map preorderL).join = [] := by
  induction ups generalizing rs with
  | nil =>
    cases rs with
    | nil => simp [preorderL]
    | cons s ss => simp [climbUp] at hcl
  | cons u us ih =>
    cases rs with
    | nil =>
      simp only [climbUp] at hcl
      have h2 := ih u hcl
      simpa [preorderL] using h2
    | cons s ss => simp [climbUp] at hcl

theorem climbUp_some_sound (ups : List (List VTree)) (rs : List VTree) (c2 : Cursor)
    (hcl : climbUp rs ups = some c2) :
    preorder c2.cur ++ preorderL c2.rights ++ (c2.ups.map preorderL).join
      = preorderL rs ++ (ups.map preorderL).join := by
  induction ups generalizing rs with
  | nil =>
    cases rs with
    | nil => simp [climbUp] at hcl
    | cons s ss =>
      simp only [climbUp] at hcl
      cases hcl
      simp [preorderL]
  | cons u us ih =>
    cases rs with
    | nil =>
      simp only [climbUp] at hcl
      have h2 := ih u hcl
      rw [h2]
      simp [preorderL]
    | cons s ss =>
      simp only [climbUp] at hcl
      cases hcl
      simp [preorderL]

theorem runWalk_preorder_aux (n : Nat) :
    ∀ c : Cursor, c.remaining ≤ n →
      runWalk c = preorder c.cur ++ preorderL c.rights ++ (c.ups.map preorderL).join := by
  induction n with
  | zero =>
    intro c hc
    rcases c with ⟨cur, rights, ups⟩
    have := VTree_size_pos cur
    simp only [Cursor.remaining] at hc
    omega
  | succ n ih =>
    intro c hc
    rcases c with ⟨cur, rights, ups⟩
    cases cur with
    | node i ks =>
      rw [runWalk_cons]
      cases ks with
      | nil =>
        have hadv : advance ⟨.node i [], rights, ups⟩ = climbUp rights ups := rfl
        rw [hadv]
        cases hcl : climbUp rights ups with
        | none =>
          have h2 := climbUp_none_sound ups rights hcl
          simp only [runWalkO, preorder, preorderL]
          rw [List.append_assoc, h2]
          rfl
        | some c2 =>
          have hlt : c2.remaining < Cursor.remaining ⟨.node i [], rights, ups⟩ :=
            advance_remaining _ c2 (by rw [hadv, hcl])
          have h2 := ih c2 (by omega)
          have h3 := climbUp_some_sound ups rights c2 hcl
          simp only [runWalkO]
          rw [h2, h3]
          simp [preorder, preorderL, VTree.nid]
      | cons k ks2 =>
        have hadv : advance ⟨.node i (k :: ks2), rights, ups⟩
            = some ⟨k, ks2, rights :: ups⟩ := rfl
        rw [hadv]
        have hlt : Cursor.remaining ⟨k, ks2, rights :: ups⟩
            < Cursor.remaining ⟨.node i (k :: ks2), rights, ups⟩ :=
          advance_remaining _ _ hadv
        have h2 := ih ⟨k, ks2, rights :: ups⟩ (by omega)
        simp only [runWalkO]
        rw [h2]
        simp [preorder, preorderL, VTree.nid]

theorem advanceN_none (n : Nat) : advanceN n none = none := by
  induction n with
  | zero => rfl
  | succ n ih => simpa [advanceN, advanceO] using ih

theorem workSlice_take (b : Nat) (oc : Option Cursor) :
    workSlice b oc = ((runWalkO oc).take b, advanceN b oc) := by
  induction b generalizing oc with
  | zero => simp [workSlice, advanceN]
  | succ b ih =>
    cases oc with
    | none => simp [workSlice, runWalkO, advanceN_none]
    | some c =>
      simp only [workSlice, ih (advance c)]
      rw [Prod.mk.injEq]
      refine ⟨?_, ?_⟩
      · rw [runWalkO, runWalk_cons]
        rfl
      · show advanceN b (advance c) = advanceN (b + 1) (some c)
        rfl

theorem runWalkO_advanceN (n : Nat) (oc : Option Cursor) :
    runWalkO (advanceN n oc) = (runWalkO oc).drop n := by
  induction n generalizing oc with
  | zero => rfl
  | succ n ih =>
    have h1 : advanceN (n + 1) oc = advanceN n (advanceO oc) := rfl
    rw [h1, ih (advanceO oc)]
    cases oc with
    | none => simp [runWalkO, advanceO]
    | some c =>
      have h2 : advanceO (some c) = advance c := rfl
      rw [h2]
      have h3 : runWalkO (some c) = c.cur.nid :: runWalkO (advance c) := runWalk_cons c
      rw [h3]
      simp

theorem advanceN_add (m n : Nat) (oc : Option Cursor) :
    advanceN (m + n) oc = advanceN n (advanceN m oc) := by
  induction m generalizing oc with
  | zero =>
    rw [Nat.zero_add]
    rfl
  | succ m ih =>
    have h1 : m + 1 + n = (m + n) + 1 := by omega
    rw [h1]
    show advanceN (m + n) (advanceO oc) = advanceN n (advanceN m (advanceO oc))
    exact ih (advanceO oc)

theorem workLoopSlices_take (bs : List Nat) (oc : Option Cursor) :
    workLoopSlices bs oc = ((runWalkO oc).take bs.sum, advanceN bs.sum oc) := by
  induction bs generalizing oc with
  | nil => simp [workLoopSlices, advanceN]
  | cons b bs ih =>
    simp only [workLoopSlices, workSlice_take, ih (advanceN b oc), List.sum_cons]
    rw [Prod.mk.injEq]
    refine ⟨?_, ?_⟩
    · rw [runWalkO_advanceN, List.take_add]
    · rw [advanceN_add]

theorem runWalkO_eq_nil_iff (oc : Option Cursor) : runWalkO oc = [] ↔ oc = none := by
  cases oc with
  | none => simp [runWalkO]
  | some c =>
    rw [runWalkO, runWalk_cons]
    simp

/-- C7: `performUnitOfWork` advances depth-first — to `fiber.child` when
present, else to the nearest ancestor's pending `sibling`, else nothing
once the walk unwinds past the root — so the uninterrupted walk visits
exactly the depth-first children-before-siblings order; and for any two
slice schedules (wherever the deadline collaborator forces cooperative
yields, as long as the granted slices let the walk finish), the
concatenated processing order, the whole slice outcome, and the final
exhausted cursor are identical: interruption never changes outcome or
order. -/
theorem workLoop_yield_invariant (t : VTree) (bs1 bs2 : List Nat)
    (h1 : (preorder t).length ≤ bs1.sum) (h2 : (preorder t).length ≤ bs2.sum) :
    (∀ (i : Nat) (k : VTree) (ks rs : List VTree) (ups : List (List VTree)),
        advance ⟨.node i (k :: ks), rs, ups⟩ = some ⟨k, ks, rs :: ups⟩) ∧
    (∀ i : Nat, advance ⟨.node i [], [], []⟩ = none) ∧
    runWalk (startCursor t) = preorder t ∧
    (workLoopSlices bs1 (some (startCursor t))).1 = preorder t ∧
    (workLoopSlices bs2 (some (startCursor t))).1 = preorder t ∧
    workLoopSlices bs1 (some (startCursor t)) = workLoopSlices bs2 (some (startCursor t)) ∧
    (workLoopSlices bs1 (some (startCursor t))).2 = none := by
  have hwalk : runWalk (startCursor t) = preorder t := by
    have h0 := runWalk_preorder_aux (Cursor.remaining (startCursor t)) (startCursor t)
      (Nat.le_refl _)
    simpa [startCursor, preorderL] using h0
  have hrun : runWalkO (some (startCursor t)) = preorder t := hwalk
  have key : ∀ bs : List Nat, (preorder t).length ≤ bs.sum →
      workLoopSlices bs (some (startCursor t)) = (preorder t, none) := by
    intro bs hbs
    rw [workLoopSlices_take, hrun]
    rw [Prod.mk.injEq]
    refine ⟨List.take_of_length_le hbs, ?_⟩
    have hnil : runWalkO (advanceN bs.sum (some (startCursor t))) = [] := by
      rw [runWalkO_advanceN, hrun]
      exact List.drop_eq_nil_of_le hbs
    exact (runWalkO_eq_nil_iff _).mp hnil
  refine ⟨fun i k ks rs ups => rfl, fun i => rfl, hwalk, ?_, ?_, ?_, ?_⟩
  · rw [key bs1 h1]
  · rw [key bs2 h2]
  · rw [key bs1 h1, key bs2 h2]
  · rw [key bs1 h1]

/-- Witness for `workLoop_yield_invariant`: a four-node tree walked under
two different yield schedules. -/
theorem workLoop_yield_invariant_witness :
    (∀ (i : Nat) (k : VTree) (ks rs : List VTree) (ups : List (List VTree)),
        advance ⟨.node i (k :: ks), rs, ups⟩ = some ⟨k, ks, rs :: ups⟩) ∧
    (∀ i : Nat, advance ⟨.node i [], [], []⟩ = none) ∧
    runWalk (startCursor (.node 0 [.node 1 [.node 3 []], .node 2 []]))
      = preorder (.node 0 [.node 1 [.node 3 []], .node 2 []]) ∧
    (workLoopSlices [2, 2]
        (some (startCursor (.node 0 [.node 1 [.node 3 []], .node 2 []])))).1
      = preorder (.node 0 [.node 1 [.node 3 []], .node 2 []]) ∧
    (workLoopSlices [1, 1, 1, 1]
        (some (startCursor (.node 0 [.node 1 [.node 3 []], .node 2 []])))).1
      = preorder (.node 0 [.node 1 [.node 3 []], .node 2 []]) ∧
    workLoopSlices [2, 2]
        (some (startCursor (.node 0 [.node 1 [.node 3 []], .node 2 []])))
      = workLoopSlices [1, 1, 1, 1]
          (some (startCursor (.node 0 [.node 1 [.node 3 []], .node 2 []]))) ∧
    (workLoopSlices [2, 2]
        (some (startCursor (.node 0 [.node 1 [.node 3 []], .node 2 []])))).2 = none := by
  exact workLoop_yield_invariant (.node 0 [.node 1 [.node 3 []], .node 2 []])
    [2, 2] [1, 1, 1, 1] (by simp [preorder, preorderL]) (by simp [preorder, preorderL])
